import Mathlib

/-!
Verification of the `bitmask` package (`bitmask.go`).

The Go code works on the native `int` type of a 64-bit platform, so the bit
width is `W = 64`. A Go `int` value is embedded as its unsigned two's-complement
representation: a natural number below `2 ^ 64`. With this representation the
Go operators `|`, `&` and `^` are exactly the `Nat` operators `|||`, `&&&` and
`^^^` (they never leave the range), `1 << id` is `(1 <<< id) % 2 ^ 64` (Go
discards the bits shifted past the width and panics on a negative shift
count, which is modelled by `Option`), and the arithmetic right shift
`mask >> 1` of a signed `int` copies the sign bit, which is `sar1` below.
A Go `int` is non-negative exactly when its representation is below `2 ^ 63`.

`Decode` iterates until the mask is zero, which for a negative (sign-extended)
mask never happens, so its loop is modelled with an explicit iteration budget
`fuel`: a `none` result means the budget was exhausted with the mask still
non-zero, i.e. the Go loop would still be running at that point. Budget `W`
covers every terminating execution, since a non-negative mask reaches zero
after at most `W - 1` shifts.
-/

namespace Bitmask

/-- Bit width of the Go `int` type on a 64-bit platform. -/
def W : Nat := 64

/-- Go left shift `x << id` on `int`, in unsigned representation: a run-time
panic on a negative shift count is `none`; otherwise the bits shifted beyond
the width are discarded. -/
def goShl (x : Nat) (id : Int) : Option Nat :=
  if id < 0 then none else some ((x <<< id.toNat) % 2 ^ W)

/-- The loop of `Encode` from `bitmask.go`: `mask |= 1 << id` for each id in
order, propagating a shift panic. -/
def encodeAux (mask : Nat) : List Int → Option Nat
  | [] => some mask
  | id :: ids =>
    match goShl 1 id with
    | none => none
    | some s => encodeAux (mask ||| s) ids

/-- `Encode` from `bitmask.go`: starts from the zero mask and sets bit `id`
for each id of the input slice. -/
def Encode (ids : List Int) : Option Nat :=
  encodeAux 0 ids

/-- Arithmetic right shift by one of a `W`-bit two's-complement value in
unsigned representation: Go `mask >>= 1` on `int` keeps the sign bit. -/
def sar1 (mask : Nat) : Nat :=
  if mask < 2 ^ (W - 1) then mask / 2 else mask / 2 + 2 ^ (W - 1)

/-- The loop of `Decode` from `bitmask.go`, with iteration budget `fuel`.
Each iteration first tests `mask != 0`, then records `bit` when the lowest
bit `mask & 1` is one, and arithmetically shifts the mask right by one.
`none` means the budget ran out with the mask still non-zero. -/
def decodeAux : Nat → Nat → Int → List Int → Option (List Int)
  | 0, mask, _, acc => if mask = 0 then some acc.reverse else none
  | fuel + 1, mask, bit, acc =>
    if mask = 0 then some acc.reverse
    else decodeAux fuel (sar1 mask) (bit + 1) (if mask &&& 1 = 1 then bit :: acc else acc)

/-- `Decode` from `bitmask.go`, run with budget `W`, which is enough for every
terminating execution of the Go loop. -/
def Decode (mask : Nat) : Option (List Int) :=
  decodeAux W mask 0 []

/-- `HasBit` from `bitmask.go`: `(mask & (1 << id)) != 0`. -/
def HasBit (mask : Nat) (id : Int) : Option Bool :=
  (goShl 1 id).map (fun s => decide (mask &&& s ≠ 0))

/-- `ToggleBit` from `bitmask.go`: `mask ^ (1 << id)`. -/
def ToggleBit (mask : Nat) (id : Int) : Option Nat :=
  (goShl 1 id).map (fun s => mask ^^^ s)

/-- Modelled from the spec: the ascending-sorted deduplicated form of a list
of identifiers. -/
def sortedDedup (ids : List Int) : List Int :=
  ids.dedup.insertionSort (· ≤ ·)

end Bitmask

namespace Bitmask

theorem goShl_one_eq {id : Int} (h0 : 0 ≤ id) (h1 : id < 64) :
    goShl 1 id = some (2 ^ id.toNat) := by
  have hn : id.toNat < 64 := by omega
  simp only [goShl, W, if_neg (by omega : ¬ id < 0)]
  rw [Nat.shiftLeft_eq, one_mul, Nat.mod_eq_of_lt (Nat.pow_lt_pow_right (by norm_num) hn)]

theorem and_two_pow_ne_zero_iff (m n : Nat) : m &&& 2 ^ n ≠ 0 ↔ m.testBit n = true := by
  constructor
  · intro h
    by_contra hb
    apply h
    apply Nat.eq_of_testBit_eq
    intro i
    simp only [Nat.testBit_and, Nat.zero_testBit, Nat.testBit_two_pow]
    rcases eq_or_ne n i with rfl | hne
    · simp_all
    · simp [hne]
  · intro h hz
    have h2 := congrArg (fun x => x.testBit n) hz
    simp only [Nat.testBit_and, Nat.testBit_two_pow_self, h, Nat.zero_testBit] at h2
    cases h2

theorem encodeAux_eq_some {ids : List Int} (h : ∀ id ∈ ids, 0 ≤ id) :
    ∀ mask : Nat, ∃ r, encodeAux mask ids = some r := by
  induction ids with
  | nil => intro mask; exact ⟨mask, rfl⟩
  | cons a t ih =>
    intro mask
    have ha : ¬ a < 0 := by
      have := h a (List.mem_cons_self a t)
      omega
    simp only [encodeAux, goShl, if_neg ha]
    exact ih (fun id hid => h id (List.mem_cons_of_mem a hid)) _

theorem encodeAux_lt_two_pow {ids : List Int} :
    ∀ mask r : Nat, mask < 2 ^ W → encodeAux mask ids = some r → r < 2 ^ W := by
  induction ids with
  | nil =>
    intro mask r hm hr
    simp only [encodeAux, Option.some.injEq] at hr
    omega
  | cons a t ih =>
    intro mask r hm hr
    rw [encodeAux] at hr
    cases hg : goShl 1 a with
    | none => rw [hg] at hr; cases hr
    | some s =>
      rw [hg] at hr
      have hs : s < 2 ^ W := by
        unfold goShl at hg
        by_cases hneg : a < 0
        · simp [hneg] at hg
        · simp only [hneg, if_false, Option.some.injEq] at hg
          have hpos : 0 < 2 ^ W := Nat.pow_pos (by norm_num)
          have := Nat.mod_lt (1 <<< a.toNat) hpos
          omega
      exact ih _ _ (Nat.or_lt_two_pow hm hs) hr

theorem encodeAux_testBit {ids : List Int} (h : ∀ id ∈ ids, 0 ≤ id ∧ id < 64) :
    ∀ (mask r : Nat), encodeAux mask ids = some r →
      ∀ k : Nat, r.testBit k = (mask.testBit k || decide ((k : Int) ∈ ids)) := by
  induction ids with
  | nil =>
    intro mask r hr k
    simp only [encodeAux, Option.some.injEq] at hr
    subst hr
    simp
  | cons a t ih =>
    intro mask r hr k
    obtain ⟨ha0, ha1⟩ := h a (List.mem_cons_self a t)
    rw [encodeAux, goShl_one_eq ha0 ha1] at hr
    have ht : ∀ id ∈ t, 0 ≤ id ∧ id < 64 := fun id hid => h id (List.mem_cons_of_mem a hid)
    rw [ih ht _ _ hr k]
    simp only [Nat.testBit_or, Nat.testBit_two_pow, List.mem_cons, Bool.or_assoc]
    congr 1
    have hiff : (a.toNat = k) ↔ ((k : Int) = a) := by omega
    by_cases hk : a.toNat = k <;> by_cases hkt : (k : Int) ∈ t <;> simp_all

theorem Encode_eq_some {ids : List Int} (h : ∀ id ∈ ids, 0 ≤ id) :
    ∃ r, Encode ids = some r :=
  encodeAux_eq_some h 0

theorem Encode_testBit {ids : List Int} {r : Nat} (h : ∀ id ∈ ids, 0 ≤ id ∧ id < 64)
    (hr : Encode ids = some r) (k : Nat) : r.testBit k = decide ((k : Int) ∈ ids) := by
  have := encodeAux_testBit h 0 r hr k
  simpa using this

theorem Encode_lt_two_pow {ids : List Int} {r : Nat} (hr : Encode ids = some r) :
    r < 2 ^ W :=
  encodeAux_lt_two_pow 0 r (by norm_num [W]) hr

theorem sar1_of_lt {mask : Nat} (h : mask < 2 ^ 63) : sar1 mask = mask / 2 := by
  have h63 : W - 1 = 63 := rfl
  rw [sar1, h63, if_pos h]

theorem sar1_of_ge {mask : Nat} (h : 2 ^ 63 ≤ mask) : sar1 mask = mask / 2 + 2 ^ 63 := by
  have h63 : W - 1 = 63 := rfl
  rw [sar1, h63, if_neg (by omega)]

theorem decodeAux_diverges :
    ∀ (fuel mask : Nat) (bit : Int) (acc : List Int),
      2 ^ 63 ≤ mask → mask < 2 ^ 64 → decodeAux fuel mask bit acc = none := by
  intro fuel
  induction fuel with
  | zero =>
    intro mask bit acc h1 h2
    rw [decodeAux, if_neg (by omega)]
  | succ f ih =>
    intro mask bit acc h1 h2
    rw [decodeAux, if_neg (by omega), sar1_of_ge h1]
    exact ih _ _ _ (by omega) (by omega)

theorem filter_testBit_range_succ (mask f : Nat) (bit : Int) :
    ((List.range (f + 1)).filter (fun i => mask.testBit i)).map (fun i : Nat => bit + (i : Int)) =
      (if mask % 2 = 1 then [bit] else []) ++
        ((List.range f).filter (fun i => (mask / 2).testBit i)).map
          (fun i : Nat => (bit + 1) + (i : Int)) := by
  rw [List.range_succ_eq_map, List.filter_cons]
  have hc : List.filter ((fun i => mask.testBit i) ∘ Nat.succ) (List.range f)
      = List.filter (fun i => (mask / 2).testBit i) (List.range f) :=
    List.filter_congr (fun a _ => by simp [Function.comp, Nat.testBit_succ])
  have hm : List.filter (fun i => mask.testBit i) ((List.range f).map Nat.succ)
      = ((List.range f).filter (fun i => (mask / 2).testBit i)).map Nat.succ := by
    rw [List.filter_map, hc]
  have hmap : (((List.range f).filter (fun i => (mask / 2).testBit i)).map Nat.succ).map
        (fun i : Nat => bit + (i : Int))
      = ((List.range f).filter (fun i => (mask / 2).testBit i)).map
          (fun i : Nat => (bit + 1) + (i : Int)) := by
    rw [List.map_map]
    exact List.map_congr_left (fun a _ => by simp [Function.comp]; ring)
  by_cases h0 : mask % 2 = 1
  · rw [if_pos (by simp [Nat.testBit_zero, h0]), if_pos h0]
    simp only [List.map_cons, hm, hmap]
    simp
  · rw [if_neg (by simp [Nat.testBit_zero, h0]), if_neg h0]
    rw [hm, hmap]
    simp

theorem decodeAux_spec :
    ∀ (fuel mask : Nat) (bit : Int) (acc : List Int),
      mask < 2 ^ 63 → mask < 2 ^ fuel →
      decodeAux fuel mask bit acc =
        some (acc.reverse ++ ((List.range fuel).filter (fun i => mask.testBit i)).map
          (fun i : Nat => bit + (i : Int))) := by
  intro fuel
  induction fuel with
  | zero =>
    intro mask bit acc h63 hf
    have h0 : mask = 0 := by omega
    subst h0
    simp [decodeAux]
  | succ f ih =>
    intro mask bit acc h63 hf
    by_cases hm : mask = 0
    · subst hm
      simp [decodeAux, Nat.zero_testBit]
    · rw [decodeAux, if_neg hm, sar1_of_lt h63]
      have h1 : mask / 2 < 2 ^ 63 := lt_of_le_of_lt (Nat.div_le_self _ _) h63
      have h2 : mask / 2 < 2 ^ f := by
        rw [pow_succ] at hf
        omega
      rw [ih _ _ _ h1 h2, filter_testBit_range_succ, Nat.and_one_is_mod]
      by_cases hp : mask % 2 = 1
      · rw [if_pos hp, if_pos hp]
        simp
      · rw [if_neg hp, if_neg hp]
        simp

theorem Decode_spec {mask : Nat} (h : mask < 2 ^ 63) :
    Decode mask =
      some (((List.range 64).filter (fun i => mask.testBit i)).map (fun i : Nat => (i : Int))) := by
  have h64 : mask < 2 ^ 64 := by omega
  have hW : W = 64 := rfl
  rw [Decode, hW, decodeAux_spec 64 mask 0 [] h h64]
  simp

theorem Decode_isSome {mask : Nat} (h : mask < 2 ^ 63) : (Decode mask).isSome := by
  rw [Decode_spec h]
  rfl

theorem sorted_lt_eq_of_mem_iff {l₁ l₂ : List Int} (h₁ : l₁.Sorted (· < ·))
    (h₂ : l₂.Sorted (· < ·)) (h : ∀ x, x ∈ l₁ ↔ x ∈ l₂) : l₁ = l₂ := by
  apply List.eq_of_perm_of_sorted _ h₁.le_of_lt h₂.le_of_lt
  exact (List.perm_ext_iff_of_nodup h₁.nodup h₂.nodup).mpr h

theorem decoded_sorted (mask : Nat) :
    (((List.range 64).filter (fun i => mask.testBit i)).map
      (fun i : Nat => (i : Int))).Sorted (· < ·) := by
  apply List.Pairwise.map
  · intro a b hab
    exact_mod_cast hab
  · exact List.Pairwise.filter _ (List.sorted_lt_range 64)

theorem decoded_mem (mask : Nat) (x : Int) :
    x ∈ ((List.range 64).filter (fun i => mask.testBit i)).map (fun i : Nat => (i : Int)) ↔
      0 ≤ x ∧ x < 64 ∧ mask.testBit x.toNat = true := by
  simp only [List.mem_map, List.mem_filter, List.mem_range]
  constructor
  · rintro ⟨i, ⟨hi64, hib⟩, rfl⟩
    refine ⟨by omega, by exact_mod_cast hi64, ?_⟩
    simpa using hib
  · rintro ⟨hx0, hx64, hxb⟩
    exact ⟨x.toNat, ⟨by omega, hxb⟩, by omega⟩

theorem sortedDedup_sorted (ids : List Int) : (sortedDedup ids).Sorted (· < ·) := by
  have h1 : (sortedDedup ids).Sorted (· ≤ ·) := List.sorted_insertionSort _ _
  have h2 : (sortedDedup ids).Nodup :=
    (List.perm_insertionSort (· ≤ ·) ids.dedup).symm.nodup (List.nodup_dedup ids)
  exact h1.lt_of_le h2

theorem sortedDedup_mem (ids : List Int) (x : Int) : x ∈ sortedDedup ids ↔ x ∈ ids := by
  rw [sortedDedup, List.mem_insertionSort, List.mem_dedup]

/-- C1, amended: for every finite list of identifiers whose elements all lie in
`[0, W-2]` (so that the sign bit `W-1` stays clear), decoding the encoding
yields the ascending-sorted deduplicated form of the list. -/
theorem c1_roundTrip (ids : List Int) (h : ∀ id ∈ ids, 0 ≤ id ∧ id < 63) :
    (Encode ids).bind Decode = some (sortedDedup ids) := by
  have hids : ∀ id ∈ ids, 0 ≤ id ∧ id < 64 :=
    fun id hid => ⟨(h id hid).1, by have := (h id hid).2; omega⟩
  obtain ⟨r, hr⟩ := Encode_eq_some (fun id hid => (h id hid).1)
  have hb : ∀ k, 63 ≤ k → r.testBit k = false := by
    intro k hk
    rw [Encode_testBit hids hr k]
    simp only [decide_eq_false_iff_not]
    intro hmem
    have := (h _ hmem).2
    omega
  have hlt : r < 2 ^ 63 := by
    have hq : r = r % 2 ^ 63 := by
      apply Nat.eq_of_testBit_eq
      intro i
      rw [Nat.testBit_mod_two_pow]
      by_cases hi : i < 63
      · simp [hi]
      · simp [hi, hb i (by omega)]
    rw [hq]
    exact Nat.mod_lt _ (by positivity)
  rw [hr]
  simp only [Option.some_bind]
  rw [Decode_spec hlt]
  congr 1
  apply sorted_lt_eq_of_mem_iff (decoded_sorted r) (sortedDedup_sorted ids)
  intro x
  rw [decoded_mem, sortedDedup_mem]
  constructor
  · rintro ⟨hx0, _, hxb⟩
    rw [Encode_testBit hids hr x.toNat] at hxb
    simpa [Int.toNat_of_nonneg hx0] using hxb
  · intro hx
    have hx0 := (h x hx).1
    have hx63 := (h x hx).2
    refine ⟨hx0, by omega, ?_⟩
    rw [Encode_testBit hids hr x.toNat]
    simpa [Int.toNat_of_nonneg hx0] using hx

/-- C1 witness: the amended round-trip at the concrete input `[5, 1, 3, 1]`. -/
theorem c1_roundTrip_witness :
    (∀ id ∈ [(5 : Int), 1, 3, 1], 0 ≤ id ∧ id < 63) ∧
      (Encode [(5 : Int), 1, 3, 1]).bind Decode = some (sortedDedup [5, 1, 3, 1]) :=
  ⟨by decide, c1_roundTrip [5, 1, 3, 1] (by decide)⟩

/-- C1 counterexample: the claim as stated fails at `ids = [63]`, whose elements
lie in `[0, W-1]`: the encoded mask has the sign bit set, so the decode loop
never finishes under any iteration budget and in particular never returns
`[63]`. -/
theorem c1_counterexample :
    Encode [(63 : Int)] = some (2 ^ 63) ∧
      ¬ ∃ fuel : Nat, decodeAux fuel (2 ^ 63) 0 [] = some [(63 : Int)] := by
  refine ⟨by decide, ?_⟩
  rintro ⟨fuel, hf⟩
  rw [decodeAux_diverges fuel (2 ^ 63) 0 [] (by norm_num) (by norm_num)] at hf
  cases hf

/-- C2: the claim is right and the code is wrong. At mask `-1` (unsigned
representation `2 ^ 64 - 1`) the decode loop never terminates: the arithmetic
right shift keeps the sign bit, so the mask never reaches zero and every
iteration budget is exhausted. -/
theorem c2_decode_diverges_on_negative_mask (fuel : Nat) :
    decodeAux fuel (2 ^ 64 - 1) 0 [] = none :=
  decodeAux_diverges fuel (2 ^ 64 - 1) 0 [] (by norm_num) (by norm_num)

/-- C3, amended: `Encode`, `HasBit` and `ToggleBit` complete without a fault
for every identifier in `[0, W-1]` (every shift amount used is non-negative,
so the unchecked shifts cannot panic), and `Decode` completes, within `W`
iterations, for every non-negative mask. -/
theorem c3_totality :
    (∀ ids : List Int, (∀ id ∈ ids, 0 ≤ id ∧ id < 64) → (Encode ids).isSome)
    ∧ (∀ (mask : Nat) (id : Int), 0 ≤ id → id < 64 → (HasBit mask id).isSome)
    ∧ (∀ (mask : Nat) (id : Int), 0 ≤ id → id < 64 → (ToggleBit mask id).isSome)
    ∧ (∀ mask : Nat, mask < 2 ^ 63 → (Decode mask).isSome) := by
  refine ⟨?_, ?_, ?_, ?_⟩
  · intro ids h
    obtain ⟨r, hr⟩ := Encode_eq_some (fun id hid => (h id hid).1)
    rw [hr]
    rfl
  · intro mask id h0 h1
    rw [HasBit, goShl_one_eq h0 h1]
    rfl
  · intro mask id h0 h1
    rw [ToggleBit, goShl_one_eq h0 h1]
    rfl
  · intro mask h
    exact Decode_isSome h

/-- C3 witness: totality at concrete inputs. -/
theorem c3_totality_witness :
    (Encode [(1 : Int), 3, 5]).isSome ∧ (HasBit 42 63).isSome ∧ (ToggleBit 42 63).isSome
      ∧ (Decode 42).isSome :=
  ⟨c3_totality.1 [1, 3, 5] (by decide), c3_totality.2.1 42 63 (by decide) (by decide),
    c3_totality.2.2.1 42 63 (by decide) (by decide), c3_totality.2.2.2 42 (by decide)⟩

/-- C3 counterexample: the claim as stated fails for `Decode` at the valid mask
`-2^63` (unsigned representation `2 ^ 63`): the call never completes, under any
iteration budget. -/
theorem c3_counterexample :
    ¬ ∃ (fuel : Nat) (l : List Int), decodeAux fuel (2 ^ 63) 0 [] = some l := by
  rintro ⟨fuel, l, hf⟩
  rw [decodeAux_diverges fuel (2 ^ 63) 0 [] (by norm_num) (by norm_num)] at hf
  cases hf

/-- C4: for every mask and identifier in `[0, W-1]`, toggling the bit and then
testing it gives the negation of testing it on the original mask. -/
theorem c4_toggle_negates_hasBit (mask : Nat) (id : Int) (_hm : mask < 2 ^ W)
    (h0 : 0 ≤ id) (h1 : id < 64) :
    (ToggleBit mask id).bind (fun m2 => HasBit m2 id) = (HasBit mask id).map (fun b => !b) := by
  rw [ToggleBit, HasBit, goShl_one_eq h0 h1]
  simp only [Option.map_some', Option.some_bind, HasBit, goShl_one_eq h0 h1,
    Option.some.injEq]
  have key : (mask ^^^ 2 ^ id.toNat) &&& 2 ^ id.toNat ≠ 0 ↔ ¬ (mask &&& 2 ^ id.toNat ≠ 0) := by
    rw [and_two_pow_ne_zero_iff, and_two_pow_ne_zero_iff]
    simp [Nat.testBit_xor]
  rw [← decide_not, decide_eq_decide]
  exact key

/-- C4 witness: the toggle/test negation at mask 42 and identifier 3. -/
theorem c4_toggle_negates_hasBit_witness :
    (ToggleBit 42 3).bind (fun m2 => HasBit m2 3) = (HasBit 42 3).map (fun b => !b) :=
  c4_toggle_negates_hasBit 42 3 (by decide) (by decide) (by decide)

/-- C5: toggling the same bit twice restores the original mask. -/
theorem c5_toggle_involution (mask : Nat) (id : Int) (_hm : mask < 2 ^ W)
    (h0 : 0 ≤ id) (h1 : id < 64) :
    (ToggleBit mask id).bind (fun m2 => ToggleBit m2 id) = some mask := by
  rw [ToggleBit, goShl_one_eq h0 h1]
  simp only [Option.map_some', Option.some_bind, ToggleBit, goShl_one_eq h0 h1,
    Option.some.injEq]
  rw [Nat.xor_assoc, Nat.xor_self, Nat.xor_zero]

/-- C5 witness: the involution at mask 42 and identifier 5. -/
theorem c5_toggle_involution_witness :
    (ToggleBit 42 5).bind (fun m2 => ToggleBit m2 5) = some 42 :=
  c5_toggle_involution 42 5 (by decide) (by decide) (by decide)

/-- C6: toggling one bit leaves every other bit unchanged. -/
theorem c6_toggle_preserves_other_bits (mask : Nat) (id1 id2 : Int) (_hm : mask < 2 ^ W)
    (h01 : 0 ≤ id1) (h11 : id1 < 64) (h02 : 0 ≤ id2) (h12 : id2 < 64) (hne : id1 ≠ id2) :
    (ToggleBit mask id1).bind (fun m2 => HasBit m2 id2) = HasBit mask id2 := by
  rw [ToggleBit, goShl_one_eq h01 h11]
  simp only [Option.map_some', Option.some_bind, HasBit, goShl_one_eq h02 h12,
    Option.some.injEq]
  rw [decide_eq_decide, and_two_pow_ne_zero_iff, and_two_pow_ne_zero_iff]
  have hnn : id1.toNat ≠ id2.toNat := by omega
  simp [Nat.testBit_xor, Nat.testBit_two_pow_of_ne hnn]

/-- C6 witness: the frame property at mask 42, toggled bit 3, tested bit 5. -/
theorem c6_toggle_preserves_other_bits_witness :
    (ToggleBit 42 3).bind (fun m2 => HasBit m2 5) = HasBit 42 5 :=
  c6_toggle_preserves_other_bits 42 3 5 (by decide) (by decide) (by decide) (by decide)
    (by decide) (by decide)

/-- C7: encoding ignores duplicate identifiers: a list and its deduplicated
form encode to the same mask. -/
theorem c7_encode_dedup (ids : List Int) (h : ∀ id ∈ ids, 0 ≤ id ∧ id < 64) :
    Encode ids = Encode ids.dedup := by
  have hd : ∀ id ∈ ids.dedup, 0 ≤ id ∧ id < 64 := fun id hid => h id (List.mem_dedup.mp hid)
  obtain ⟨r1, hr1⟩ := Encode_eq_some (fun id hid => (h id hid).1)
  obtain ⟨r2, hr2⟩ := Encode_eq_some (fun id hid => (hd id hid).1)
  rw [hr1, hr2]
  have hr : r1 = r2 := by
    apply Nat.eq_of_testBit_eq
    intro k
    rw [Encode_testBit h hr1 k, Encode_testBit hd hr2 k]
    simp [List.mem_dedup]
  rw [hr]

/-- C7 witness: duplicate idempotence at `[1, 1, 3]`. -/
theorem c7_encode_dedup_witness :
    Encode [(1 : Int), 1, 3] = Encode ([(1 : Int), 1, 3].dedup) :=
  c7_encode_dedup [1, 1, 3] (by decide)

/-- C8: the ten concrete scenarios of the spec, evaluated on the embedded
operations. -/
theorem c8_concrete_scenarios :
    Encode [] = some 0 ∧ Encode [(1 : Int), 3, 5] = some 42
      ∧ Encode [(1 : Int), 1, 3] = some 10 ∧ Encode [(31 : Int)] = some (2 ^ 31)
      ∧ Decode 42 = some [(1 : Int), 3, 5] ∧ Decode 15 = some [(0 : Int), 1, 2, 3]
      ∧ HasBit 42 3 = some true ∧ HasBit 42 2 = some false
      ∧ ToggleBit 0 2 = some 4 ∧ ToggleBit 4 2 = some 0 := by
  decide

/-- C9: on every non-negative mask, re-encoding the decoded identifier list
gives back the original mask. -/
theorem c9_decode_encode (mask : Nat) (h : mask < 2 ^ 63) :
    (Decode mask).bind Encode = some mask := by
  rw [Decode_spec h]
  simp only [Option.some_bind]
  have hbound : ∀ id ∈ ((List.range 64).filter (fun i => mask.testBit i)).map
      (fun i : Nat => (i : Int)), 0 ≤ id ∧ id < 64 := by
    intro id hid
    obtain ⟨h0, h1, _⟩ := (decoded_mem mask id).mp hid
    exact ⟨h0, h1⟩
  obtain ⟨r, hr⟩ := Encode_eq_some (fun id hid => (hbound id hid).1)
  rw [hr, Option.some.injEq]
  apply Nat.eq_of_testBit_eq
  intro k
  rw [Encode_testBit hbound hr k]
  by_cases hk : k < 64
  · have hmem : ((k : Int) ∈ ((List.range 64).filter (fun i => mask.testBit i)).map
        (fun i : Nat => (i : Int))) ↔ mask.testBit k = true := by
      rw [decoded_mem]
      constructor
      · rintro ⟨_, _, hb⟩
        simpa using hb
      · intro hb
        exact ⟨by omega, by exact_mod_cast hk, by simpa using hb⟩
    by_cases hb : mask.testBit k = true
    · simp [hmem, hb]
    · simp [hmem, hb]
  · have h1 : mask.testBit k = false :=
      Nat.testBit_lt_two_pow (lt_of_lt_of_le h (Nat.pow_le_pow_right (by norm_num) (by omega)))
    have h2 : ¬ ((k : Int) ∈ ((List.range 64).filter (fun i => mask.testBit i)).map
        (fun i : Nat => (i : Int))) := by
      rw [decoded_mem]
      rintro ⟨_, hk64, _⟩
      omega
    simp [h1, h2]

/-- C9 witness: the reverse round-trip at mask 42. -/
theorem c9_decode_encode_witness : (Decode 42).bind Encode = some 42 :=
  c9_decode_encode 42 (by decide)

/-- C10: a bit is set in the encoding of a list exactly when the identifier
occurs in the list. -/
theorem c10_hasBit_encode (ids : List Int) (id : Int) (h : ∀ i ∈ ids, 0 ≤ i ∧ i < 64)
    (h0 : 0 ≤ id) (h1 : id < 64) :
    (Encode ids).bind (fun m => HasBit m id) = some (decide (id ∈ ids)) := by
  obtain ⟨r, hr⟩ := Encode_eq_some (fun i hi => (h i hi).1)
  rw [hr]
  simp only [Option.some_bind, HasBit, goShl_one_eq h0 h1, Option.map_some',
    Option.some.injEq]
  rw [decide_eq_decide, and_two_pow_ne_zero_iff, Encode_testBit h hr id.toNat]
  simp [Int.toNat_of_nonneg h0]

/-- C10 witness: membership agreement at `[1, 3, 5]` with identifiers 3 and 2. -/
theorem c10_hasBit_encode_witness :
    (Encode [(1 : Int), 3, 5]).bind (fun m => HasBit m 3) = some (decide ((3 : Int) ∈ [(1 : Int), 3, 5])) :=
  c10_hasBit_encode [1, 3, 5] 3 (by decide) (by decide) (by decide)

end Bitmask
